import Mathlib

/-!
Shallow embedding of the card-check repository's core logic.

Strings are modelled as `List Char` (faithful to JavaScript's UTF-16 view
for the BMP characters used throughout the code and data).

Embedded source functions:
* `parseCSV` — the CSV rule-table loader (identical in `src/app.js` and
  `src/unnamed/part_000`), including the `/\r?\n/` line split, the
  `키워드` header sniff, blank-line skipping, comma splitting and field
  trimming.
* `Exact.findDriver` — the exact-substring matcher of `src/app.js`.
* `Fuzzy.findDriver` — the exact-then-normalized matcher of
  `src/unnamed/part_000` (per rule: strict `includes`, then `includes`
  on both sides with whitespace, `.`, `-`, `,` removed).
* `extractAddressAfterAnchor` — the anchor extractor of
  `src/unnamed/part_000` (`해운대` first, then `부산`, else identity).
-/

namespace CardCheck

/-- The whitespace characters relevant to JavaScript `String.trim` and the
regex class `\s` for the inputs this program handles. -/
def isJsSpace (c : Char) : Bool :=
  c = ' ' || c = '\t' || c = '\n' || c = '\r' || c = Char.ofNat 11 || c = Char.ofNat 12

/-- JavaScript `String.trim`: drop whitespace from both ends. -/
def trimL (l : List Char) : List Char :=
  ((l.dropWhile isJsSpace).reverse.dropWhile isJsSpace).reverse

/-- `startsWithL sub l`: `sub` is a leading segment of `l`. -/
def startsWithL : List Char → List Char → Bool
  | [], _ => true
  | _ :: _, [] => false
  | a :: as, b :: bs => a = b && startsWithL as bs

/-- `includesL sub l`: JavaScript `l.includes(sub)` — `sub` occurs as a
contiguous substring of `l`. -/
def includesL (sub : List Char) : List Char → Bool
  | [] => sub.isEmpty
  | c :: cs => startsWithL sub (c :: cs) || includesL sub cs

/-- Helper for splitters: prepend a character to the first field. -/
def consHead (c : Char) : List (List Char) → List (List Char)
  | [] => [[c]]
  | l :: ls => (c :: l) :: ls

/-- JavaScript `line.split(',')`. -/
def splitOnComma : List Char → List (List Char)
  | [] => [[]]
  | c :: cs => if c = ',' then [] :: splitOnComma cs else consHead c (splitOnComma cs)

/-- JavaScript `csvText.split(/\r?\n/)`: a separator is either LF or CRLF;
a CR not followed by LF is ordinary content. -/
def splitLines : List Char → List (List Char)
  | [] => [[]]
  | '\n' :: cs => [] :: splitLines cs
  | '\r' :: '\n' :: cs => [] :: splitLines cs
  | '\r' :: cs => consHead '\r' (splitLines cs)
  | c :: cs => consHead c (splitLines cs)

/-- One rule of the lookup table: `{keyword, driver}`. -/
structure Rule where
  keyword : List Char
  driver : List Char
deriving DecidableEq

/-- The header marker `'키워드'` sniffed on the first line. -/
def headerMark : List Char := "키워드".data

/-- `lines[0] && lines[0].includes('키워드')` → start at line 1. -/
def headerSkip : List (List Char) → List (List Char)
  | [] => []
  | l0 :: rest => if !l0.isEmpty && includesL headerMark l0 then rest else l0 :: rest

/-- The per-line body of the `parseCSV` loop: trim, skip blank lines, split
on commas, and keep the first two trimmed fields when there are at least
two. -/
def parseLine (line : List Char) : List Rule :=
  if (trimL line).isEmpty then []
  else
    match splitOnComma (trimL line) with
    | p0 :: p1 :: _ => [⟨trimL p0, trimL p1⟩]
    | _ => []

/-- `parseCSV` from `src/app.js` lines 32-60 (identical in
`src/unnamed/part_000` lines 32-50). -/
def parseCSV (csvText : List Char) : List Rule :=
  ((headerSkip (splitLines csvText)).map parseLine).flatten

/-- The characters removed by `replace(/[\s\.\-\,]+/g, '')`. -/
def isStripChar (c : Char) : Bool :=
  isJsSpace c || c = '.' || c = '-' || c = ','

/-- `text.replace(/[\s\.\-\,]+/g, '')`: delete whitespace, periods,
hyphens and commas. -/
def normalize (l : List Char) : List Char :=
  l.filter (fun c => !isStripChar c)

namespace Exact

/-- Loop body of `findDriver` in `src/app.js` lines 174-178. -/
def findDriverLoop (text : List Char) : List Rule → Option Rule
  | [] => none
  | r :: rs => if includesL r.keyword text then some r else findDriverLoop text rs

/-- `findDriver` from `src/app.js` lines 170-180: guard on empty text,
then return the first rule whose keyword occurs literally in the text. -/
def findDriver (text : List Char) (table : List Rule) : Option Rule :=
  if text.isEmpty then none else findDriverLoop text table

end Exact

namespace Fuzzy

/-- Loop body of `findDriver` in `src/unnamed/part_000` lines 143-152:
for each rule in order, strict `includes` first, then `includes` on the
normalized text and keyword. -/
def findDriverLoop (text ntext : List Char) : List Rule → Option Rule
  | [] => none
  | r :: rs =>
    if includesL r.keyword text then some r
    else if includesL (normalize r.keyword) ntext then some r
    else findDriverLoop text ntext rs

/-- `findDriver` from `src/unnamed/part_000` lines 139-154: guard on empty
text, normalize the text once, then run the per-rule loop. -/
def findDriver (text : List Char) (table : List Rule) : Option Rule :=
  if text.isEmpty then none else findDriverLoop text (normalize text) table

end Fuzzy

/-- First anchor phrase (`src/unnamed/part_000` line 129). -/
def anchor1 : List Char := "해운대".data

/-- Second anchor phrase (`src/unnamed/part_000` line 132). -/
def anchor2 : List Char := "부산".data

/-- `text.indexOf(anchor)` followed by `text.substring(index + anchor.length)`:
`some` of the suffix strictly after the leftmost occurrence of `anchor`,
`none` when `anchor` does not occur. -/
def afterAnchor (anchor : List Char) : List Char → Option (List Char)
  | [] => if anchor.isEmpty then some [] else none
  | c :: cs =>
    if startsWithL anchor (c :: cs) then some (List.drop anchor.length (c :: cs))
    else afterAnchor anchor cs

/-- `extractAddressAfterAnchor` from `src/unnamed/part_000` lines 128-136:
try `해운대`, then `부산`, trimming the remainder; fall back to the whole
text. -/
def extractAddressAfterAnchor (text : List Char) : List Char :=
  match afterAnchor anchor1 text with
  | some rest => trimL rest
  | none =>
    match afterAnchor anchor2 text with
    | some rest => trimL rest
    | none => text

/-- Encode a rule back into one CSV line `keyword,driver`. -/
def encodeRow (r : Rule) : List Char := r.keyword ++ ',' :: r.driver

/-- Join lines with a fixed separator (inverse of a splitter). -/
def joinWith (sep : List Char) : List (List Char) → List Char
  | [] => []
  | [l] => l
  | l :: l' :: ls => l ++ sep ++ joinWith sep (l' :: ls)

/-! ### General lemmas about the string helpers -/

lemma includesL_nil_left (l : List Char) : includesL [] l = true := by
  cases l <;> simp [includesL, startsWithL]

lemma startsWithL_append_self (a x : List Char) : startsWithL a (a ++ x) = true := by
  induction a with
  | nil => rfl
  | cons c cs ih => simp [startsWithL, ih]

lemma afterAnchor_of_starts (a t : List Char) (h : startsWithL a t = true) :
    afterAnchor a t = some (t.drop a.length) := by
  cases t with
  | nil =>
    cases a with
    | nil => simp [afterAnchor]
    | cons c cs => simp [startsWithL] at h
  | cons c cs => simp [afterAnchor, h]

lemma afterAnchor_cons_of_not_starts (a : List Char) (c : Char) (cs : List Char)
    (h : startsWithL a (c :: cs) = false) :
    afterAnchor a (c :: cs) = afterAnchor a cs := by
  simp [afterAnchor, h]

lemma afterAnchor_eq_none_of_not_includes (a text : List Char)
    (h : includesL a text = false) : afterAnchor a text = none := by
  induction text with
  | nil =>
    simp only [includesL] at h
    simp [afterAnchor, h]
  | cons c cs ih =>
    simp only [includesL, Bool.or_eq_false_iff] at h
    simp [afterAnchor, h.1, ih h.2]

lemma afterAnchor_append (a pre post : List Char)
    (h : ∀ i, i < pre.length → startsWithL a ((pre ++ (a ++ post)).drop i) = false) :
    afterAnchor a (pre ++ (a ++ post)) = some post := by
  induction pre with
  | nil =>
    rw [List.nil_append, afterAnchor_of_starts a (a ++ post) (startsWithL_append_self a post),
      List.drop_left]
  | cons x xs ih =>
    have h0 : startsWithL a (x :: (xs ++ (a ++ post))) = false := by
      have hx := h 0 (Nat.succ_pos _)
      simpa using hx
    rw [List.cons_append, afterAnchor_cons_of_not_starts a x _ h0]
    exact ih (fun i hi => by
      have hx := h (i + 1) (Nat.succ_lt_succ hi)
      simpa using hx)

/-! ### Claim theorems: matcher basics and anchor extraction -/

/-- C6: both matchers return no match on empty text (for every table) and
on an empty table (for every text); both are total functions. -/
theorem c6_empty_text_or_table_no_match (text : List Char) (table : List Rule) :
    Exact.findDriver [] table = none ∧ Fuzzy.findDriver [] table = none ∧
      Exact.findDriver text [] = none ∧ Fuzzy.findDriver text [] = none := by
  refine ⟨rfl, rfl, ?_, ?_⟩ <;>
    simp [Exact.findDriver, Fuzzy.findDriver, Exact.findDriverLoop, Fuzzy.findDriverLoop]

/-- C4: with two rules where the later rule's keyword is a substring of the
earlier rule's keyword, and a non-empty text containing the later (shorter)
keyword literally but not the earlier (longer) one, the exact matcher
returns the later rule — first qualifying rule in table order, with no
longest-match preference. -/
theorem c4_first_match_not_longest (A B : Rule) (text : List Char)
    (_hsub : includesL B.keyword A.keyword = true)
    (hB : includesL B.keyword text = true)
    (hA : includesL A.keyword text = false)
    (hne : text ≠ []) :
    Exact.findDriver text [A, B] = some B := by
  have h : text.isEmpty = false := by
    cases text with
    | nil => exact absurd rfl hne
    | cons c cs => rfl
  simp [Exact.findDriver, h, Exact.findDriverLoop, hA, hB]

theorem c4_first_match_not_longest_witness :
    includesL ("b".data) ("ab".data) = true ∧
      includesL ("b".data) ("zb".data) = true ∧
      includesL ("ab".data) ("zb".data) = false ∧
      ("zb".data ≠ ([] : List Char)) ∧
      Exact.findDriver ("zb".data) [⟨"ab".data, "D1".data⟩, ⟨"b".data, "D2".data⟩]
        = some ⟨"b".data, "D2".data⟩ :=
  ⟨by decide, by decide, by decide, by decide,
    c4_first_match_not_longest ⟨"ab".data, "D1".data⟩ ⟨"b".data, "D2".data⟩ ("zb".data)
      (by decide) (by decide) (by decide) (by decide)⟩

/-- C5: for a text that is any prefix, then the first anchor `해운대`, then
a remainder, where the anchor occurs nowhere earlier, `extractAddressAfterAnchor`
returns the whitespace-trimmed remainder after that leftmost occurrence —
regardless of whether the second anchor `부산` also occurs in the text. -/
theorem c5_after_first_anchor (pre post : List Char)
    (h : ∀ i, i < pre.length →
      startsWithL anchor1 ((pre ++ (anchor1 ++ post)).drop i) = false) :
    extractAddressAfterAnchor (pre ++ (anchor1 ++ post)) = trimL post := by
  simp only [extractAddressAfterAnchor, afterAnchor_append anchor1 pre post h]

theorem c5_after_first_anchor_witness :
    extractAddressAfterAnchor (("부산 광고 ".data) ++ (anchor1 ++ " 대로 123".data))
        = trimL (" 대로 123".data) ∧
      ("부산 광고 ".data) ++ (anchor1 ++ " 대로 123".data)
        = "부산 광고 해운대 대로 123".data ∧
      trimL (" 대로 123".data) = "대로 123".data :=
  ⟨c5_after_first_anchor _ _ (by decide), by decide, by decide⟩

/-- C8: when the text contains neither anchor phrase, the extractor returns
the input unchanged — it never fails, only degrades to full-text search. -/
theorem c8_no_anchor_identity (text : List Char)
    (h1 : includesL anchor1 text = false)
    (h2 : includesL anchor2 text = false) :
    extractAddressAfterAnchor text = text := by
  simp only [extractAddressAfterAnchor, afterAnchor_eq_none_of_not_includes _ _ h1,
    afterAnchor_eq_none_of_not_includes _ _ h2]

theorem c8_no_anchor_identity_witness :
    includesL anchor1 ("서울 강남구 123".data) = false ∧
      includesL anchor2 ("서울 강남구 123".data) = false ∧
      extractAddressAfterAnchor ("서울 강남구 123".data) = "서울 강남구 123".data :=
  ⟨by decide, by decide, c8_no_anchor_identity _ (by decide) (by decide)⟩

/-! ### First-hit characterisations of the two matcher loops -/

lemma exact_loop_first_hit (text : List Char) (rs : List Rule) :
    ∀ (j : Nat) (r : Rule),
      rs[j]? = some r → includesL r.keyword text = true →
      (∀ i r', i < j → rs[i]? = some r' → includesL r'.keyword text = false) →
      Exact.findDriverLoop text rs = some r := by
  induction rs with
  | nil => intro j r hj _ _; simp at hj
  | cons rr rest ih =>
    intro j r hj hhit hbef
    cases j with
    | zero =>
      simp only [List.getElem?_cons_zero, Option.some.injEq] at hj
      subst hj
      simp [Exact.findDriverLoop, hhit]
    | succ j =>
      have h0 : includesL rr.keyword text = false :=
        hbef 0 rr (Nat.succ_pos _) (by simp)
      rw [List.getElem?_cons_succ] at hj
      simp only [Exact.findDriverLoop, h0, Bool.false_eq_true, if_false]
      exact ih j r hj hhit
        (fun i r' hi hr' => hbef (i + 1) r' (Nat.succ_lt_succ hi) (by simpa using hr'))

lemma fuzzy_loop_first_hit (text ntext : List Char) (rs : List Rule) :
    ∀ (j : Nat) (r : Rule),
      rs[j]? = some r →
      (includesL r.keyword text = true ∨ includesL (normalize r.keyword) ntext = true) →
      (∀ i r', i < j → rs[i]? = some r' →
        includesL r'.keyword text = false ∧ includesL (normalize r'.keyword) ntext = false) →
      Fuzzy.findDriverLoop text ntext rs = some r := by
  induction rs with
  | nil => intro j r hj _ _; simp at hj
  | cons rr rest ih =>
    intro j r hj hhit hbef
    cases j with
    | zero =>
      simp only [List.getElem?_cons_zero, Option.some.injEq] at hj
      subst hj
      rcases hhit with h | h
      · simp [Fuzzy.findDriverLoop, h]
      · by_cases he : includesL rr.keyword text = true
        · simp [Fuzzy.findDriverLoop, he]
        · have he' : includesL rr.keyword text = false := Bool.eq_false_iff.mpr he
          simp [Fuzzy.findDriverLoop, he', h]
    | succ j =>
      have h0 := hbef 0 rr (Nat.succ_pos _) (by simp)
      rw [List.getElem?_cons_succ] at hj
      simp only [Fuzzy.findDriverLoop, h0.1, h0.2, Bool.false_eq_true, if_false]
      exact ih j r hj hhit
        (fun i r' hi hr' => hbef (i + 1) r' (Nat.succ_lt_succ hi) (by simpa using hr'))

lemma fuzzy_loop_hit_le (text ntext : List Char) (rs : List Rule) :
    ∀ (j : Nat) (r : Rule),
      rs[j]? = some r →
      (includesL r.keyword text || includesL (normalize r.keyword) ntext) = true →
      ∃ i r', i ≤ j ∧ rs[i]? = some r' ∧
        Fuzzy.findDriverLoop text ntext rs = some r' := by
  induction rs with
  | nil => intro j r hj _; simp at hj
  | cons rr rest ih =>
    intro j r hj hhit
    by_cases hcond : (includesL rr.keyword text || includesL (normalize rr.keyword) ntext) = true
    · refine ⟨0, rr, Nat.zero_le _, by simp, ?_⟩
      have hor : includesL rr.keyword text = true ∨
          includesL (normalize rr.keyword) ntext = true := by simpa using hcond
      rcases hor with h | h
      · simp [Fuzzy.findDriverLoop, h]
      · by_cases he : includesL rr.keyword text = true
        · simp [Fuzzy.findDriverLoop, he]
        · have he' : includesL rr.keyword text = false := Bool.eq_false_iff.mpr he
          simp [Fuzzy.findDriverLoop, he', h]
    · have hcond' := Bool.eq_false_iff.mpr hcond
      rw [Bool.or_eq_false_iff] at hcond'
      cases j with
      | zero =>
        simp only [List.getElem?_cons_zero, Option.some.injEq] at hj
        subst hj
        rw [hcond'.1, hcond'.2] at hhit
        simp at hhit
      | succ j =>
        rw [List.getElem?_cons_succ] at hj
        obtain ⟨i, r', hle, hi, hloop⟩ := ih j r hj hhit
        refine ⟨i + 1, r', Nat.succ_le_succ hle,
          by rw [List.getElem?_cons_succ]; exact hi, ?_⟩
        simp only [Fuzzy.findDriverLoop, hcond'.1, hcond'.2, Bool.false_eq_true, if_false]
        exact hloop

lemma exact_to_fuzzy_loop (text ntext : List Char) (rs : List Rule) :
    ∀ (r : Rule), Exact.findDriverLoop text rs = some r →
      ∃ i j r', i ≤ j ∧ rs[i]? = some r' ∧ rs[j]? = some r ∧
        includesL r.keyword text = true ∧
        (∀ (k : Nat) (r'' : Rule), k < j → rs[k]? = some r'' →
          includesL r''.keyword text = false) ∧
        Fuzzy.findDriverLoop text ntext rs = some r' := by
  induction rs with
  | nil => intro r h; simp [Exact.findDriverLoop] at h
  | cons rr rest ih =>
    intro r h
    by_cases he : includesL rr.keyword text = true
    · have hr : rr = r := by simpa [Exact.findDriverLoop, he] using h
      subst hr
      refine ⟨0, 0, rr, le_refl _, by simp, by simp, he,
        fun k r'' hk _ => absurd hk (Nat.not_lt_zero k), ?_⟩
      simp [Fuzzy.findDriverLoop, he]
    · have he' : includesL rr.keyword text = false := Bool.eq_false_iff.mpr he
      have h' : Exact.findDriverLoop text rest = some r := by
        simpa [Exact.findDriverLoop, he'] using h
      obtain ⟨i, j, r', hij, hi, hj, hinc, hfirst, hloop⟩ := ih r h'
      by_cases hf : includesL (normalize rr.keyword) ntext = true
      · refine ⟨0, j + 1, rr, Nat.zero_le _, by simp,
          by rw [List.getElem?_cons_succ]; exact hj, hinc, ?_, ?_⟩
        · intro k r'' hk hr''
          cases k with
          | zero =>
            simp only [List.getElem?_cons_zero, Option.some.injEq] at hr''
            subst hr''
            exact he'
          | succ k =>
            rw [List.getElem?_cons_succ] at hr''
            exact hfirst k r'' (Nat.lt_of_succ_lt_succ hk) hr''
        · simp [Fuzzy.findDriverLoop, he', hf]
      · have hf' : includesL (normalize rr.keyword) ntext = false := Bool.eq_false_iff.mpr hf
        refine ⟨i + 1, j + 1, r', Nat.succ_le_succ hij,
          by rw [List.getElem?_cons_succ]; exact hi,
          by rw [List.getElem?_cons_succ]; exact hj, hinc, ?_, ?_⟩
        · intro k r'' hk hr''
          cases k with
          | zero =>
            simp only [List.getElem?_cons_zero, Option.some.injEq] at hr''
            subst hr''
            exact he'
          | succ k =>
            rw [List.getElem?_cons_succ] at hr''
            exact hfirst k r'' (Nat.lt_of_succ_lt_succ hk) hr''
        · simp only [Fuzzy.findDriverLoop, he', hf', Bool.false_eq_true, if_false]
          exact hloop

/-! ### Claim theorems: two-pass precedence, refinement, degenerate keywords -/

/-- C1 counterexample: with table `[{“a b”, D1}, {“x”, D2}]` and text
`"ab x"`, the later rule's keyword `"x"` occurs literally in the text and
the earlier rule's keyword `"a b"` matches only after normalization; the
claim says the later exact match must win, but the matcher of
`src/unnamed/part_000` returns the earlier, normalized-only rule. -/
theorem c1_counterexample :
    includesL ("x".data) ("ab x".data) = true ∧
      includesL ("a b".data) ("ab x".data) = false ∧
      includesL (normalize ("a b".data)) (normalize ("ab x".data)) = true ∧
      ((⟨"a b".data, "D1".data⟩ : Rule) ≠ ⟨"x".data, "D2".data⟩) ∧
      Fuzzy.findDriver ("ab x".data) [⟨"a b".data, "D1".data⟩, ⟨"x".data, "D2".data⟩]
        = some ⟨"a b".data, "D1".data⟩ := by decide

/-- C1 (amended): the matcher of `src/unnamed/part_000` is per-row
two-phase, not two whole-table passes: it scans the table once in order
and, at each rule, tries the exact substring test and then the normalized
one, returning the first rule that matches either way. Hence an
earlier-table rule matching only after normalization outranks a
later-table exact match. -/
theorem c1_per_row_first_hit (text : List Char) (table : List Rule) (j : Nat) (r : Rule)
    (hne : text ≠ [])
    (hj : table[j]? = some r)
    (hhit : includesL r.keyword text = true ∨
      includesL (normalize r.keyword) (normalize text) = true)
    (hbef : ∀ i r', i < j → table[i]? = some r' →
      includesL r'.keyword text = false ∧
        includesL (normalize r'.keyword) (normalize text) = false) :
    Fuzzy.findDriver text table = some r := by
  rcases text with _ | ⟨c, cs⟩
  · exact absurd rfl hne
  · simpa [Fuzzy.findDriver] using
      fuzzy_loop_first_hit (c :: cs) (normalize (c :: cs)) table j r hj hhit hbef

theorem c1_per_row_first_hit_witness :
    Fuzzy.findDriver ("ab x".data) [⟨"a b".data, "De".data⟩, ⟨"x".data, "Df".data⟩]
      = some ⟨"a b".data, "De".data⟩ :=
  c1_per_row_first_hit ("ab x".data) _ 0 ⟨"a b".data, "De".data⟩ (by decide) (by decide)
    (Or.inr (by decide)) (fun i r' hi _ => absurd hi (Nat.not_lt_zero i))

/-- C9: whenever the exact-only matcher (`src/app.js`) returns a rule, the
exact-plus-normalized matcher (`src/unnamed/part_000`) also returns a rule
on the same inputs, at a table position no later than the position of the
first exact match; adding the normalized phase never turns a match into a
no-match. -/
theorem c9_fuzzy_refines_exact (text : List Char) (table : List Rule) (r : Rule)
    (h : Exact.findDriver text table = some r) :
    ∃ i j r', i ≤ j ∧ table[i]? = some r' ∧ table[j]? = some r ∧
      includesL r.keyword text = true ∧
      (∀ (k : Nat) (r'' : Rule), k < j → table[k]? = some r'' →
        includesL r''.keyword text = false) ∧
      Fuzzy.findDriver text table = some r' := by
  rcases text with _ | ⟨c, cs⟩
  · simp [Exact.findDriver] at h
  · have h' : Exact.findDriverLoop (c :: cs) table = some r := by
      simpa [Exact.findDriver] using h
    obtain ⟨i, j, r', hij, hi, hj, hinc, hfirst, hloop⟩ :=
      exact_to_fuzzy_loop (c :: cs) (normalize (c :: cs)) table r h'
    exact ⟨i, j, r', hij, hi, hj, hinc, hfirst, by simpa [Fuzzy.findDriver] using hloop⟩

theorem c9_fuzzy_refines_exact_witness :
    ∃ i j r', i ≤ j ∧
      ([⟨"a b".data, "Da".data⟩, ⟨"x".data, "Db".data⟩] : List Rule)[i]? = some r' ∧
      ([⟨"a b".data, "Da".data⟩, ⟨"x".data, "Db".data⟩] : List Rule)[j]?
        = some ⟨"x".data, "Db".data⟩ ∧
      includesL (Rule.keyword ⟨"x".data, "Db".data⟩) ("ab x".data) = true ∧
      (∀ (k : Nat) (r'' : Rule), k < j →
        ([⟨"a b".data, "Da".data⟩, ⟨"x".data, "Db".data⟩] : List Rule)[k]? = some r'' →
        includesL r''.keyword ("ab x".data) = false) ∧
      Fuzzy.findDriver ("ab x".data) [⟨"a b".data, "Da".data⟩, ⟨"x".data, "Db".data⟩]
        = some r' :=
  c9_fuzzy_refines_exact ("ab x".data) _ ⟨"x".data, "Db".data⟩ (by decide)

/-- C10: if some rule's keyword normalizes to the empty string (it consists
only of whitespace, periods, hyphens and commas), then for every non-empty
text the matcher of `src/unnamed/part_000` returns some rule at or before
that rule's table position, because the empty string is a substring of
every string. -/
theorem c10_empty_normalized_keyword_matches_all (text : List Char) (table : List Rule)
    (j : Nat) (r : Rule)
    (hne : text ≠ [])
    (hj : table[j]? = some r)
    (hnorm : normalize r.keyword = []) :
    ∃ i r', i ≤ j ∧ table[i]? = some r' ∧ Fuzzy.findDriver text table = some r' := by
  rcases text with _ | ⟨c, cs⟩
  · exact absurd rfl hne
  · have hhit : (includesL r.keyword (c :: cs) ||
        includesL (normalize r.keyword) (normalize (c :: cs))) = true := by
      rw [hnorm, includesL_nil_left, Bool.or_true]
    obtain ⟨i, r', hle, hi, hloop⟩ :=
      fuzzy_loop_hit_le (c :: cs) (normalize (c :: cs)) table j r hj hhit
    exact ⟨i, r', hle, hi, by simpa [Fuzzy.findDriver] using hloop⟩

theorem c10_empty_normalized_keyword_matches_all_witness :
    normalize (" .-, ".data) = [] ∧
      ∃ i r', i ≤ 1 ∧
        ([⟨"q".data, "Dq".data⟩, ⟨" .-, ".data, "Ds".data⟩] : List Rule)[i]? = some r' ∧
        Fuzzy.findDriver ("zzz".data) [⟨"q".data, "Dq".data⟩, ⟨" .-, ".data, "Ds".data⟩]
          = some r' :=
  ⟨by decide,
    c10_empty_normalized_keyword_matches_all ("zzz".data) _ 1 ⟨" .-, ".data, "Ds".data⟩
      (by decide) (by decide) (by decide)⟩

/-! ### Lemmas about trimming -/

lemma trimL_eq_rdropWhile (l : List Char) :
    trimL l = List.rdropWhile isJsSpace (List.dropWhile isJsSpace l) := rfl

lemma dropWhile_of_rdropWhile (p : Char → Bool) (m : List Char)
    (hm : List.dropWhile p m = m) :
    List.dropWhile p (List.rdropWhile p m) = List.rdropWhile p m := by
  cases m with
  | nil => simp
  | cons a m' =>
    have hpa : p a = false := by
      by_cases h : p a = true
      · rw [List.dropWhile_cons_of_pos h] at hm
        have h1 : (List.dropWhile p m').length ≤ m'.length :=
          (List.dropWhile_suffix p).length_le
        have h2 := congrArg List.length hm
        simp only [List.length_cons] at h2
        omega
      · exact Bool.eq_false_iff.mpr h
    cases hr : List.rdropWhile p (a :: m') with
    | nil => simp
    | cons b bs =>
      have hpre : b :: bs <+: a :: m' := by
        rw [← hr]; exact List.rdropWhile_prefix p (a :: m')
      obtain ⟨t, ht⟩ := hpre
      have hb : b = a := by
        rw [List.cons_append] at ht
        exact (List.cons.injEq _ _ _ _ ▸ ht).1
      subst hb
      rw [List.dropWhile_cons_of_neg (by simp [hpa])]

lemma trimL_trimL (l : List Char) : trimL (trimL l) = trimL l := by
  have hm : List.dropWhile isJsSpace (List.dropWhile isJsSpace l)
      = List.dropWhile isJsSpace l := List.dropWhile_idempotent isJsSpace l
  rw [trimL_eq_rdropWhile, trimL_eq_rdropWhile,
    dropWhile_of_rdropWhile isJsSpace _ hm]
  exact List.rdropWhile_idempotent isJsSpace _

lemma trimL_eq_self_of_no_space (l : List Char) (h : ∀ c ∈ l, isJsSpace c = false) :
    trimL l = l := by
  have h1 : List.dropWhile isJsSpace l = l := by
    rw [List.dropWhile_eq_self_iff]
    intro hl
    simp only [Bool.not_eq_true]
    exact h _ (l.get_mem 0 hl)
  have h2 : List.rdropWhile isJsSpace l = l := by
    rw [List.rdropWhile_eq_self_iff]
    intro hl
    simp [h (l.getLast hl) (l.getLast_mem hl)]
  rw [trimL_eq_rdropWhile, h1, h2]

/-! ### Lemmas about the line and comma splitters -/

lemma splitLines_cons_other (c : Char) (cs : List Char) (h1 : c ≠ '\n') (h2 : c ≠ '\r') :
    splitLines (c :: cs) = consHead c (splitLines cs) := by
  rcases cs with _ | ⟨c', cs'⟩ <;> simp [splitLines, h1, h2]

lemma splitLines_single (l : List Char) (hl : ∀ c ∈ l, c ≠ '\n' ∧ c ≠ '\r') :
    splitLines l = [l] := by
  induction l with
  | nil => rfl
  | cons c cs ih =>
    have hc := hl c (by simp)
    rw [splitLines_cons_other c cs hc.1 hc.2, ih (fun x hx => hl x (by simp [hx]))]
    rfl

lemma splitLines_append_LF (l rest : List Char) (hl : ∀ c ∈ l, c ≠ '\n' ∧ c ≠ '\r') :
    splitLines (l ++ '\n' :: rest) = l :: splitLines rest := by
  induction l with
  | nil => rfl
  | cons c cs ih =>
    have hc := hl c (by simp)
    rw [List.cons_append, splitLines_cons_other c _ hc.1 hc.2,
      ih (fun x hx => hl x (by simp [hx]))]
    rfl

lemma splitLines_append_CRLF (l rest : List Char) (hl : ∀ c ∈ l, c ≠ '\n' ∧ c ≠ '\r') :
    splitLines (l ++ '\r' :: '\n' :: rest) = l :: splitLines rest := by
  induction l with
  | nil => rfl
  | cons c cs ih =>
    have hc := hl c (by simp)
    rw [List.cons_append, splitLines_cons_other c _ hc.1 hc.2,
      ih (fun x hx => hl x (by simp [hx]))]
    rfl

lemma splitLines_joinWith_LF (ls : List (List Char)) (hne : ls ≠ [])
    (h : ∀ l ∈ ls, ∀ c ∈ l, c ≠ '\n' ∧ c ≠ '\r') :
    splitLines (joinWith ['\n'] ls) = ls := by
  induction ls with
  | nil => exact absurd rfl hne
  | cons l ls' ih =>
    cases ls' with
    | nil => exact splitLines_single l (h l (by simp))
    | cons l' ls'' =>
      have hstep : joinWith ['\n'] (l :: l' :: ls'')
          = l ++ '\n' :: joinWith ['\n'] (l' :: ls'') := by
        rw [joinWith]; simp
      rw [hstep, splitLines_append_LF l _ (h l (by simp)),
        ih (by simp) (fun x hx => h x (by simp [hx]))]

lemma splitLines_joinWith_CRLF (ls : List (List Char)) (hne : ls ≠ [])
    (h : ∀ l ∈ ls, ∀ c ∈ l, c ≠ '\n' ∧ c ≠ '\r') :
    splitLines (joinWith ['\r', '\n'] ls) = ls := by
  induction ls with
  | nil => exact absurd rfl hne
  | cons l ls' ih =>
    cases ls' with
    | nil => exact splitLines_single l (h l (by simp))
    | cons l' ls'' =>
      have hstep : joinWith ['\r', '\n'] (l :: l' :: ls'')
          = l ++ '\r' :: '\n' :: joinWith ['\r', '\n'] (l' :: ls'') := by
        rw [joinWith]; simp
      rw [hstep, splitLines_append_CRLF l _ (h l (by simp)),
        ih (by simp) (fun x hx => h x (by simp [hx]))]

lemma splitOnComma_no_comma (l : List Char) (h : ∀ c ∈ l, c ≠ ',') :
    splitOnComma l = [l] := by
  induction l with
  | nil => rfl
  | cons c cs ih =>
    simp only [splitOnComma]
    rw [if_neg (h c (by simp)), ih (fun x hx => h x (by simp [hx]))]
    rfl

lemma splitOnComma_append (k d : List Char) (hk : ∀ c ∈ k, c ≠ ',') :
    splitOnComma (k ++ ',' :: d) = k :: splitOnComma d := by
  induction k with
  | nil => simp [splitOnComma]
  | cons c cs ih =>
    simp only [List.cons_append, splitOnComma, List.append_eq]
    rw [if_neg (hk c (by simp)), ih (fun x hx => hk x (by simp [hx]))]
    rfl

/-! ### Lemmas about the CSV parser -/

lemma mem_parseLine (r : Rule) (line : List Char) (h : r ∈ parseLine line) :
    ∃ p0 p1, r = ⟨trimL p0, trimL p1⟩ := by
  unfold parseLine at h
  by_cases hemp : (trimL line).isEmpty = true
  · rw [if_pos hemp] at h
    simp at h
  · rw [if_neg hemp] at h
    rcases hsp : splitOnComma (trimL line) with _ | ⟨p0, ps⟩
    · rw [hsp] at h; simp at h
    · rcases ps with _ | ⟨p1, tail⟩
      · rw [hsp] at h; simp at h
      · rw [hsp] at h
        simp only [List.mem_singleton] at h
        exact ⟨p0, p1, h⟩

/-- A rule whose fields are free of commas, whitespace, line breaks and the
header marker; such rules survive a CSV round trip unchanged. -/
abbrev rowOk (r : Rule) : Prop :=
  (∀ c ∈ r.keyword, isJsSpace c = false ∧ c ≠ ',' ∧ c ≠ '\n' ∧ c ≠ '\r') ∧
  (∀ c ∈ r.driver, isJsSpace c = false ∧ c ≠ ',' ∧ c ≠ '\n' ∧ c ≠ '\r') ∧
  includesL headerMark (encodeRow r) = false

lemma encodeRow_clean (r : Rule) (h : rowOk r) :
    ∀ c ∈ encodeRow r, c ≠ '\n' ∧ c ≠ '\r' := by
  intro c hc
  rw [encodeRow] at hc
  rcases List.mem_append.mp hc with hm | hm
  · exact ⟨(h.1 c hm).2.2.1, (h.1 c hm).2.2.2⟩
  · rcases List.mem_cons.mp hm with rfl | hm
    · exact ⟨by decide, by decide⟩
    · exact ⟨(h.2.1 c hm).2.2.1, (h.2.1 c hm).2.2.2⟩

lemma parseLine_encodeRow (r : Rule) (h : rowOk r) :
    parseLine (encodeRow r) = [r] := by
  have htrim : trimL (encodeRow r) = encodeRow r := by
    apply trimL_eq_self_of_no_space
    intro c hc
    rw [encodeRow] at hc
    rcases List.mem_append.mp hc with hm | hm
    · exact (h.1 c hm).1
    · rcases List.mem_cons.mp hm with rfl | hm
      · decide
      · exact (h.2.1 c hm).1
  have hne : (encodeRow r).isEmpty = false := by
    rw [encodeRow]; cases r.keyword <;> rfl
  unfold parseLine
  rw [htrim]
  simp only [hne, Bool.false_eq_true, if_false]
  rw [encodeRow, splitOnComma_append _ _ (fun c hc => (h.1 c hc).2.1),
    splitOnComma_no_comma _ (fun c hc => (h.2.1 c hc).2.1)]
  show [(⟨trimL r.keyword, trimL r.driver⟩ : Rule)] = [r]
  rw [trimL_eq_self_of_no_space _ (fun c hc => (h.1 c hc).1),
    trimL_eq_self_of_no_space _ (fun c hc => (h.2.1 c hc).1)]

lemma flatten_map_parseLine (rows : List Rule) (h : ∀ r ∈ rows, rowOk r) :
    ((rows.map encodeRow).map parseLine).flatten = rows := by
  induction rows with
  | nil => rfl
  | cons r rest ih =>
    simp only [List.map_cons, List.flatten_cons]
    rw [parseLine_encodeRow r (h r (by simp)), ih (fun x hx => h x (by simp [hx]))]
    rfl

/-! ### Claim theorems: the CSV parser -/

/-- C2 counterexample: the input line `",A"` has an empty first
comma-separated field, yet `parseCSV` keeps the row, producing a rule whose
keyword is empty after trimming — refuting the claim that no rule of the
parsed table has an empty trimmed keyword. -/
theorem c2_counterexample :
    ¬ (∀ r ∈ parseCSV (",A".data), trimL r.keyword ≠ []) := by decide

/-- C2 (amended): every rule produced by `parseCSV` has whitespace-trimmed
keyword and driver fields (trimming them again changes nothing), but the
keyword is not guaranteed to be non-empty: a line whose first field is
empty or whitespace-only yields a rule with an empty keyword. -/
theorem c2_rules_trimmed (csv : List Char) (r : Rule) (h : r ∈ parseCSV csv) :
    trimL r.keyword = r.keyword ∧ trimL r.driver = r.driver := by
  unfold parseCSV at h
  rw [List.mem_flatten] at h
  obtain ⟨L, hL, hr⟩ := h
  rw [List.mem_map] at hL
  obtain ⟨line, _, rfl⟩ := hL
  obtain ⟨p0, p1, rfl⟩ := mem_parseLine r line hr
  exact ⟨trimL_trimL p0, trimL_trimL p1⟩

theorem c2_rules_trimmed_witness :
    ((⟨"a".data, "X".data⟩ : Rule) ∈ parseCSV ("a, X ".data)) ∧
      trimL (Rule.keyword ⟨"a".data, "X".data⟩) = "a".data ∧
      trimL (Rule.driver ⟨"a".data, "X".data⟩) = "X".data :=
  ⟨by decide,
    (c2_rules_trimmed ("a, X ".data) ⟨"a".data, "X".data⟩ (by decide)).1,
    (c2_rules_trimmed ("a, X ".data) ⟨"a".data, "X".data⟩ (by decide)).2⟩

/-- C3 counterexample: the same two rows delimited by a bare CR parse
differently from the LF-delimited version, because `split(/\r?\n/)` does
not treat a lone CR as a line separator. -/
theorem c3_counterexample :
    parseCSV ("a,X\rb,Y".data) ≠ parseCSV ("a,X\nb,Y".data) := by decide

/-- C3 (amended): `parseCSV` splits on LF and CRLF only (a CR immediately
before an LF is consumed with it); for every list of lines free of CR and
LF, the CRLF-delimited input parses to the same rule list as the
LF-delimited one, but a bare CR is not a line separator. -/
theorem c3_lf_crlf_agree (ls : List (List Char))
    (h : ∀ l ∈ ls, ∀ c ∈ l, c ≠ '\n' ∧ c ≠ '\r') :
    parseCSV (joinWith ['\r', '\n'] ls) = parseCSV (joinWith ['\n'] ls) := by
  cases ls with
  | nil => rfl
  | cons l ls' =>
    unfold parseCSV
    rw [splitLines_joinWith_CRLF _ (by simp) h, splitLines_joinWith_LF _ (by simp) h]

theorem c3_lf_crlf_agree_witness :
    joinWith ['\r', '\n'] ["a,X".data, "b,Y".data] = "a,X\r\nb,Y".data ∧
      joinWith ['\n'] ["a,X".data, "b,Y".data] = "a,X\nb,Y".data ∧
      parseCSV (joinWith ['\r', '\n'] ["a,X".data, "b,Y".data])
        = parseCSV (joinWith ['\n'] ["a,X".data, "b,Y".data]) :=
  ⟨by decide, by decide, c3_lf_crlf_agree ["a,X".data, "b,Y".data] (by decide)⟩

/-- C7: `parseCSV` preserves file order and retains duplicates: for every
list of rules with clean fields (no commas, whitespace, line breaks, or
the header marker), joining their encoded lines with LF and parsing yields
exactly the original rules in the original order — no deduplication, no
sorting. In particular `"a,X\nb,Y\na,Z"` parses to `[{a,X},{b,Y},{a,Z}]`. -/
theorem c7_table_order_round_trip (rows : List Rule) (h : ∀ r ∈ rows, rowOk r) :
    parseCSV (joinWith ['\n'] (rows.map encodeRow)) = rows := by
  cases rows with
  | nil => rfl
  | cons r0 rest =>
    unfold parseCSV
    rw [splitLines_joinWith_LF _ (by simp)
      (fun l hl => by
        rw [List.mem_map] at hl
        obtain ⟨r, hr, rfl⟩ := hl
        exact encodeRow_clean r (h r hr))]
    simp only [List.map_cons, headerSkip, (h r0 (by simp)).2.2, Bool.and_false,
      Bool.false_eq_true, if_false]
    exact flatten_map_parseLine (r0 :: rest) h

theorem c7_table_order_round_trip_witness :
    joinWith ['\n'] (([⟨"a".data, "X".data⟩, ⟨"b".data, "Y".data⟩,
        ⟨"a".data, "Z".data⟩] : List Rule).map encodeRow) = "a,X\nb,Y\na,Z".data ∧
      parseCSV ("a,X\nb,Y\na,Z".data)
        = [⟨"a".data, "X".data⟩, ⟨"b".data, "Y".data⟩, ⟨"a".data, "Z".data⟩] := by
  refine ⟨by decide, ?_⟩
  have hthm := c7_table_order_round_trip
    [⟨"a".data, "X".data⟩, ⟨"b".data, "Y".data⟩, ⟨"a".data, "Z".data⟩] (by decide)
  rw [(by decide : ("a,X\nb,Y\na,Z".data) = joinWith ['\n']
    (([⟨"a".data, "X".data⟩, ⟨"b".data, "Y".data⟩,
      ⟨"a".data, "Z".data⟩] : List Rule).map encodeRow))]
  exact hthm

end CardCheck
